import Mathlib

/-!
Formal model of `sweetviz_stock_insights.py`.

The script fetches a table of adjusted closing prices (one column per
ticker, one row per trading date) and, in `generate_volatility_comparison`,
derives a per-row volatility score and a two-way volatility label:

  df["Volatility"] = df.pct_change().std(axis=1)
  median_vol = df["Volatility"].median()
  df["Volatility_Level"] = np.where(df["Volatility"] > median_vol,
                                    "High Volatility", "Low Volatility")

We model a price cell as `Option ℚ` (`none` is a missing value, the NaN of
the floating-point source; prices and returns are idealized as exact
rationals), a row as a list of cells, and a table as a list of rows.
The standard deviation introduces a square root, so scores live in
`Option ℝ` via `Real.sqrt`.

Pandas semantics followed by the model:

* `DataFrame.pct_change()` with its default `fill_method` first
  forward-fills each column (a missing cell takes the latest earlier value
  in its column), then computes `(cur - prev) / prev` cellwise between
  consecutive filled rows; the first row of the result is entirely missing,
  and the result has exactly as many rows as the input.
* `DataFrame.std(axis=1)` skips missing values and divides by `n - 1`
  (`ddof = 1`); with fewer than two defined values it yields NaN.
* `Series.median()` skips missing values, sorts, and takes the middle
  element (odd count) or the mean of the two middle elements (even count);
  it yields NaN on an all-missing series.
* `series > scalar` is `False` wherever either side is NaN, so `np.where`
  sends rows with an undefined score (or an undefined median) to the
  "Low Volatility" branch.
-/

abbrev Cell := Option ℚ

abbrev Row := List Cell

abbrev Table := List Row

/-- Forward fill of one cell: a defined current value is kept, a missing
one takes the (already filled) value above it in the same column. -/
def fillCell (p c : Cell) : Cell :=
  match c with
  | some v => some v
  | none => p

/-- Forward fill of a whole row against the filled previous row. -/
def ffillRow (p r : Row) : Row :=
  List.zipWith fillCell p r

/-- The list of forward-filled rows below a given filled row. -/
def filledRows : Row → Table → Table
  | _, [] => []
  | f, r :: rs => let f2 := ffillRow f r; f2 :: filledRows f2 rs

/-- One cell of `pct_change`: `(cur - prev) / prev` when both the filled
previous and the filled current value are defined, missing otherwise. -/
def pctCell (p c : Cell) : Cell :=
  match p, c with
  | some p, some c => some ((c - p) / p)
  | _, _ => none

/-- Rows of `pct_change` below the first row, threading the forward fill:
row `i` of the result is the cellwise `pctCell` of the filled rows `i`
and `i + 1` of the original table. -/
def pctRows : Row → Table → Table
  | _, [] => []
  | f, r :: rs => let f2 := ffillRow f r; List.zipWith pctCell f f2 :: pctRows f2 rs

/-- Model of `df.pct_change()`: same number of rows as the input, the
first row entirely missing, the remaining rows given by `pctRows`. -/
def pctChange : Table → Table
  | [] => []
  | r :: rs => r.map (fun _ => none) :: pctRows r rs

/-- Sample variance (ddof = 1) of a list of defined values, as computed by
pandas: squared deviations from the mean, summed, divided by `n - 1`. -/
def sampleVar (d : List ℚ) : ℚ :=
  (d.map (fun x => (x - d.sum / (d.length : ℚ)) ^ 2)).sum / ((d.length : ℚ) - 1)

/-- Sample variance of the defined values of a row; missing (NaN) when the
row has fewer than two defined values, as in pandas `std(ddof=1)`. -/
def rowVar (r : Row) : Option ℚ :=
  let d := r.filterMap id
  if d.length < 2 then none else some (sampleVar d)

/-- Model of one entry of `df.pct_change().std(axis=1)`: the square root
of the sample variance of the defined values of a returns row. -/
noncomputable def rowStd (r : Row) : Option ℝ :=
  (rowVar r).map (fun (v : ℚ) => Real.sqrt (v : ℝ))

/-- The `Volatility` column: `df.pct_change().std(axis=1)`. -/
noncomputable def volatilityOf (t : Table) : List (Option ℝ) :=
  (pctChange t).map rowStd

/-- Middle element (odd length) or mean of the two middle elements (even
length) of a sorted list, as in the numpy median. -/
noncomputable def medianOfSorted (l : List ℝ) : ℝ :=
  if l.length % 2 = 1 then l.getD (l.length / 2) 0
  else (l.getD (l.length / 2 - 1) 0 + l.getD (l.length / 2) 0) / 2

/-- Model of `Series.median()`: drop missing values, sort, take the middle;
missing when no value is defined. -/
noncomputable def medianList (l : List (Option ℝ)) : Option ℝ :=
  let d := l.filterMap id
  if d.isEmpty then none else some (medianOfSorted (List.insertionSort (· ≤ ·) d))

/-- The classification threshold `median_vol = df["Volatility"].median()`. -/
noncomputable def thresholdOf (t : Table) : Option ℝ :=
  medianList (volatilityOf t)

/-- Model of one entry of
`np.where(df["Volatility"] > median_vol, "High Volatility", "Low Volatility")`:
a NaN score or a NaN threshold compares as `False`, so only a defined score
strictly above a defined threshold is labeled high. -/
noncomputable def labelOf (s m : Option ℝ) : String :=
  match s, m with
  | some s, some m => if m < s then "High Volatility" else "Low Volatility"
  | _, _ => "Low Volatility"

/-- The `Volatility_Level` column. -/
noncomputable def labelsOf (t : Table) : List String :=
  (volatilityOf t).map (fun s => labelOf s (thresholdOf t))

/-- The boolean partition vector
`df["Volatility_Level"] == "High Volatility"` passed to `compare_intra`. -/
noncomputable def partitionOf (t : Table) : List Bool :=
  (labelsOf t).map (fun l => l == "High Volatility")

/-- Observable state of the DataFrame object held by the caller: the price
columns it was created with, plus the two derived columns once (and only
once) `generate_volatility_comparison` has assigned them. -/
structure DF where
  prices : Table
  volatility : Option (List (Option ℝ))
  volatilityLevel : Option (List String)

/-- Model of `generate_volatility_comparison`: the function assigns the
columns `Volatility` and `Volatility_Level` to its argument in place
(`df["Volatility"] = ...`), so the model returns the state of the caller
DataFrame after the call. The price columns are read, never written. -/
noncomputable def generate_volatility_comparison (df : DF) : DF :=
  { prices := df.prices,
    volatility := some (volatilityOf df.prices),
    volatilityLevel := some (labelsOf df.prices) }

/-- Terminal states of a run of the script. -/
inductive RunState where
  | Success
  | Failed
  deriving DecidableEq

/-- Outcome of a run: terminal state, report files written, console
messages printed. -/
structure RunOutcome where
  state : RunState
  artifacts : List String
  messages : List String
  deriving DecidableEq

/-- Model of `fetch_stock_data`. The argument is the outcome of
`yf.download`: `none` when the download raises, `some t` when it returns
the table `t` of adjusted closes (`t = []` models `data.empty`). The
result is the returned table (or `none`) together with the printed error
messages. -/
def fetch_stock_data (download : Option Table) : Option Table × List String :=
  match download with
  | none => (none, ["Error fetching stock data"])
  | some data =>
    if data.isEmpty then
      (none, ["Error: No data found. Please check stock tickers and date range."])
    else
      (some data, [])

/-- Model of the `__main__` block after input collection: fetch, then
either render both reports (success) or print the failure message and
write nothing. -/
def mainRun (download : Option Table) : RunOutcome :=
  match fetch_stock_data download with
  | (some _, msgs) =>
    { state := RunState.Success,
      artifacts := ["sweetviz_report.html", "sweetviz_volatility_report.html"],
      messages := msgs ++
        ["Sweetviz report generated: sweetviz_report.html",
         "Sweetviz volatility comparison report generated: sweetviz_volatility_report.html",
         "All reports have been successfully generated."] }
  | (none, msgs) =>
    { state := RunState.Failed,
      artifacts := [],
      messages := msgs ++
        ["Failed to retrieve stock data. Please check your inputs and try again."] }

/-! ### Structural lemmas about `pctChange` -/

theorem length_ffillRow {p r : Row} (h : p.length = r.length) :
    (ffillRow p r).length = r.length := by
  simp [ffillRow, List.length_zipWith, h]

theorem pctRows_length : ∀ (rs : Table) (f : Row), (pctRows f rs).length = rs.length
  | [], _ => rfl
  | r :: rs, f => by simp [pctRows, pctRows_length rs (ffillRow f r)]

theorem pctChange_length (t : Table) : (pctChange t).length = t.length := by
  cases t with
  | nil => rfl
  | cons r rs => simp [pctChange, pctRows_length]

theorem pctRows_widths {w : ℕ} :
    ∀ (rs : Table) (f : Row), f.length = w → (∀ r ∈ rs, r.length = w) →
      ∀ r ∈ pctRows f rs, r.length = w := by
  intro rs
  induction rs with
  | nil => intro f _ _ r hr; simp [pctRows] at hr
  | cons b bs ih =>
    intro f hf hw r hr
    have hb : b.length = w := hw b (by simp)
    have hf2 : (ffillRow f b).length = w := by
      rw [length_ffillRow (hf.trans hb.symm)]; exact hb
    simp only [pctRows] at hr
    rcases List.mem_cons.mp hr with h | h
    · subst h; simp [List.length_zipWith, hf, hf2]
    · exact ih (ffillRow f b) hf2 (fun r hr => hw r (by simp [hr])) r h

theorem pctChange_widths {w : ℕ} (t : Table) (hw : ∀ r ∈ t, r.length = w) :
    ∀ r ∈ pctChange t, r.length = w := by
  cases t with
  | nil => intro r hr; simp [pctChange] at hr
  | cons b bs =>
    intro r hr
    have hb : b.length = w := hw b (by simp)
    simp only [pctChange] at hr
    rcases List.mem_cons.mp hr with h | h
    · subst h; simp [hb]
    · exact pctRows_widths bs b hb (fun r hr => hw r (by simp [hr])) r h

theorem zipWith_getElem?_some {α β γ : Type} (f : α → β → γ) {a : List α} {b : List β}
    {i : ℕ} {x : α} {y : β} (hx : a[i]? = some x) (hy : b[i]? = some y) :
    (List.zipWith f a b)[i]? = some (f x y) := by
  rcases List.getElem?_eq_some.mp hx with ⟨hxi, hxe⟩
  rcases List.getElem?_eq_some.mp hy with ⟨hyi, hye⟩
  have hz : i < (List.zipWith f a b).length := by
    rw [List.length_zipWith]; omega
  rw [List.getElem?_eq_getElem hz, List.getElem_zipWith, hxe, hye]

theorem ffillRow_defined {p r : Row} (h : p.length = r.length) {j : ℕ} {v : ℚ}
    (hj : r[j]? = some (some v)) : (ffillRow p r)[j]? = some (some v) := by
  rcases List.getElem?_eq_some.mp hj with ⟨hjl, hv⟩
  have hp : p[j]? = some p[j] := List.getElem?_eq_getElem (by omega)
  have := zipWith_getElem?_some fillCell hp hj
  rw [ffillRow, this]
  simp [fillCell]

theorem pctRows_both_defined {w : ℕ} :
    ∀ (rs : Table) (f q0 : Row), f.length = w → q0.length = w →
      (∀ r ∈ rs, r.length = w) →
      (∀ (j : ℕ) (v : ℚ), q0[j]? = some (some v) → f[j]? = some (some v)) →
      ∀ (i j : ℕ) (p c : ℚ) (qa qb : Row),
        (q0 :: rs)[i]? = some qa → rs[i]? = some qb →
        qa[j]? = some (some p) → qb[j]? = some (some c) →
        ∃ rr, (pctRows f rs)[i]? = some rr ∧ rr[j]? = some (some ((c - p) / p)) := by
  intro rs
  induction rs with
  | nil =>
    intro f q0 _ _ _ _ i j p c qa qb _ hqb _ _
    simp at hqb
  | cons b bs ih =>
    intro f q0 hf hq0 hwrs hcompat i j p c qa qb hqa hqb hp hc
    have hb : b.length = w := hwrs b (by simp)
    have hfb : f.length = b.length := hf.trans hb.symm
    have hf2 : (ffillRow f b).length = w := by rw [length_ffillRow hfb]; exact hb
    cases i with
    | zero =>
      have hqa0 : qa = q0 := by simpa using hqa.symm
      have hqb0 : qb = b := by simpa using hqb.symm
      subst hqa0; subst hqb0
      have hfp : f[j]? = some (some p) := hcompat j p hp
      refine ⟨List.zipWith pctCell f (ffillRow f qb), ?_, ?_⟩
      · simp [pctRows]
      · rw [zipWith_getElem?_some pctCell hfp (ffillRow_defined hfb hc)]
        simp [pctCell]
    | succ i' =>
      have hqa' : (b :: bs)[i']? = some qa := by simpa using hqa
      have hstep : (pctRows f (b :: bs))[i' + 1]? = (pctRows (ffillRow f b) bs)[i']? := by
        simp [pctRows]
      rw [hstep]
      exact ih (ffillRow f b) b hf2 hb (fun r hr => hwrs r (by simp [hr]))
        (fun j v hv => ffillRow_defined hfb hv) i' j p c qa qb hqa'
        (by simpa using hqb) hp hc

theorem pctChange_head_none (t : Table) (r0 : Row) (h : (pctChange t)[0]? = some r0) :
    ∀ c ∈ r0, c = none := by
  cases t with
  | nil => simp [pctChange] at h
  | cons b bs =>
    have : r0 = b.map (fun _ => none) := by simpa [pctChange] using h.symm
    subst this
    intro c hc
    rcases List.mem_map.mp hc with ⟨_, _, hce⟩
    exact hce.symm

theorem rowStd_short {r : Row} (h : r.length ≤ 1) : rowStd r = none := by
  have hd : (r.filterMap id).length ≤ 1 := (List.length_filterMap_le id r).trans h
  simp only [rowStd, rowVar]
  rw [if_pos (by omega)]
  rfl

theorem rowStd_all_none (r : Row) : rowStd (r.map (fun _ => none)) = none := by
  have hd : (r.map fun _ => (none : Cell)).filterMap id = [] := by
    rw [List.filterMap_map]
    simp [Function.comp]
  simp only [rowStd, rowVar, hd]
  rfl

theorem volatilityOf_head_none (r : Row) (rs : Table) :
    (volatilityOf (r :: rs))[0]? = some none := by
  simp only [volatilityOf, pctChange, List.map_cons, List.getElem?_cons_zero]
  rw [rowStd_all_none]

/-! ### Permutation of ticker columns -/

/-- The table whose column `k` is column `p.get k` of `t`: for `p` a
permutation of `range w` this is exactly a permutation of the ticker
columns of a table of width `w`. -/
def permuteCols (p : List ℕ) (t : Table) : Table :=
  t.map (fun r => p.map (fun j => r.getD j none))

theorem zipWith_map_same {α β γ δ : Type} (φ : β → γ → δ) (f1 : α → β) (f2 : α → γ) :
    ∀ (p : List α), List.zipWith φ (p.map f1) (p.map f2) = p.map (fun j => φ (f1 j) (f2 j)) := by
  intro p
  induction p with
  | nil => rfl
  | cons a p ih => simp [ih]

theorem getD_zipWith_pointwise {φ : Cell → Cell → Cell} (hφ : φ none none = none)
    {a b : Row} (h : a.length = b.length) (j : ℕ) :
    φ (a.getD j none) (b.getD j none) = (List.zipWith φ a b).getD j none := by
  rcases Nat.lt_or_ge j b.length with hj | hj
  · have hja : j < a.length := by omega
    have hjz : j < (List.zipWith φ a b).length := by
      rw [List.length_zipWith]; omega
    rw [List.getD_eq_getElem _ _ hja, List.getD_eq_getElem _ _ hj,
      List.getD_eq_getElem _ _ hjz, List.getElem_zipWith]
  · rw [List.getD_eq_default _ _ (by omega), List.getD_eq_default _ _ hj,
      List.getD_eq_default _ _ (by rw [List.length_zipWith]; omega), hφ]

theorem ffillRow_permute (p : List ℕ) {a b : Row} (h : a.length = b.length) :
    ffillRow (p.map (fun j => a.getD j none)) (p.map (fun j => b.getD j none)) =
      p.map (fun j => (ffillRow a b).getD j none) := by
  rw [ffillRow, zipWith_map_same]
  exact List.map_congr_left fun j _ => getD_zipWith_pointwise rfl h j

theorem pct_zipWith_permute (p : List ℕ) {a b : Row} (h : a.length = b.length) :
    List.zipWith pctCell (p.map (fun j => a.getD j none)) (p.map (fun j => b.getD j none)) =
      p.map (fun j => (List.zipWith pctCell a b).getD j none) := by
  rw [zipWith_map_same]
  exact List.map_congr_left fun j _ => getD_zipWith_pointwise rfl h j

theorem getD_map_none (r : Row) (j : ℕ) :
    (r.map (fun _ => (none : Cell))).getD j none = none := by
  rcases Nat.lt_or_ge j r.length with hj | hj
  · rw [List.getD_eq_getElem _ _ (by simpa using hj)]
    simp
  · rw [List.getD_eq_default _ _ (by simpa using hj)]

theorem pctRows_permute {w : ℕ} (p : List ℕ) :
    ∀ (rs : Table) (f : Row), f.length = w → (∀ r ∈ rs, r.length = w) →
      pctRows (p.map (fun j => f.getD j none))
          (rs.map (fun r => p.map (fun j => r.getD j none))) =
        (pctRows f rs).map (fun r => p.map (fun j => r.getD j none)) := by
  intro rs
  induction rs with
  | nil => intro f _ _; rfl
  | cons b bs ih =>
    intro f hf hw
    have hb : b.length = w := hw b (by simp)
    have hfb : f.length = b.length := hf.trans hb.symm
    have hf2 : (ffillRow f b).length = w := by rw [length_ffillRow hfb]; exact hb
    simp only [List.map_cons, pctRows]
    rw [ffillRow_permute p hfb, pct_zipWith_permute p (by rw [length_ffillRow hfb]; omega),
      ih (ffillRow f b) hf2 (fun r hr => hw r (by simp [hr]))]

theorem pctChange_permute {w : ℕ} (p : List ℕ) (t : Table) (hw : ∀ r ∈ t, r.length = w) :
    pctChange (permuteCols p t) = permuteCols p (pctChange t) := by
  cases t with
  | nil => rfl
  | cons b bs =>
    have hb : b.length = w := hw b (by simp)
    simp only [permuteCols, List.map_cons, pctChange]
    congr 1
    · rw [List.map_map]
      exact List.map_congr_left fun j _ => (getD_map_none b j).symm
    · exact pctRows_permute p bs b hb (fun r hr => hw r (by simp [hr]))

theorem map_range_getD (r : Row) {w : ℕ} (h : r.length = w) :
    (List.range w).map (fun j => r.getD j none) = r := by
  apply List.ext_getElem
  · simp [h]
  · intro n h1 h2
    have hn : n < w := by simpa using h1
    rw [List.getElem_map, List.getElem_range, List.getD_eq_getElem _ _ (by omega)]

theorem permRow_perm {p : List ℕ} {w : ℕ} (hp : p.Perm (List.range w)) (r : Row)
    (h : r.length = w) : (p.map (fun j => r.getD j none)).Perm r := by
  have := hp.map (fun j => r.getD j none)
  rwa [map_range_getD r h] at this

theorem sampleVar_perm {a b : List ℚ} (hab : a.Perm b) : sampleVar a = sampleVar b := by
  have hl : a.length = b.length := hab.length_eq
  have hs : a.sum = b.sum := hab.sum_eq
  have hmap : (a.map (fun x => (x - b.sum / (b.length : ℚ)) ^ 2)).sum =
      (b.map (fun x => (x - b.sum / (b.length : ℚ)) ^ 2)).sum :=
    (hab.map (fun x => (x - b.sum / (b.length : ℚ)) ^ 2)).sum_eq
  rw [sampleVar, sampleVar, hl, hs, hmap]

theorem rowVar_perm {a b : Row} (hab : a.Perm b) : rowVar a = rowVar b := by
  have hd : (a.filterMap id).Perm (b.filterMap id) := hab.filterMap id
  rw [rowVar, rowVar]
  simp only [hd.length_eq, sampleVar_perm hd]

theorem rowStd_perm {a b : Row} (hab : a.Perm b) : rowStd a = rowStd b := by
  rw [rowStd, rowStd, rowVar_perm hab]

/-! ### Concrete tables used as witnesses -/

/-- Three tickers, five trading days, no missing prices. The returns of
the rows after the first are (1,1,1), (11,13,0), (22,26,0), (33,39,0),
whose sample standard deviations are 0, 7, 14 and 21. -/
def wt : Table :=
  [[some 1, some 1, some 1],
   [some 2, some 2, some 2],
   [some 24, some 28, some 2],
   [some 552, some 756, some 2],
   [some 18768, some 30240, some 2]]

/-- The first four rows of `wt`: scores `none, 0, 7, 14`, median 7. -/
def wt4 : Table :=
  [[some 1, some 1, some 1],
   [some 2, some 2, some 2],
   [some 24, some 28, some 2],
   [some 552, some 756, some 2]]

/-- A one-ticker table. -/
def oneCol : Table := [[some 1], [some 2], [some 3]]

/-- A table with a missing price in the second column of the second row. -/
def tmix : Table := [[some 1, some 1], [some 2, none], [some 4, some 1]]

theorem volatilityOf_eq_var_map (t : Table) :
    volatilityOf t =
      ((pctChange t).map rowVar).map (Option.map (fun v : ℚ => Real.sqrt (v : ℝ))) := by
  rw [volatilityOf, List.map_map]
  exact List.map_congr_left fun r _ => by rw [rowStd]; rfl

theorem sqrt_eq_of_sq {a b : ℝ} (hb : 0 ≤ b) (h : a = b ^ 2) : Real.sqrt a = b := by
  rw [h, Real.sqrt_sq hb]

theorem wt_var : (pctChange wt).map rowVar = [none, some 0, some 49, some 196, some 441] := by
  norm_num [pctChange, pctRows, ffillRow, fillCell, pctCell, wt, rowVar, sampleVar,
    List.filterMap_cons, id_eq, List.sum_cons, List.sum_nil]

theorem wtVol : volatilityOf wt = [none, some 0, some 7, some 14, some 21] := by
  rw [volatilityOf_eq_var_map, wt_var]
  have e49 : Real.sqrt (49 : ℝ) = 7 := sqrt_eq_of_sq (by norm_num) (by norm_num)
  have e196 : Real.sqrt (196 : ℝ) = 14 := sqrt_eq_of_sq (by norm_num) (by norm_num)
  have e441 : Real.sqrt (441 : ℝ) = 21 := sqrt_eq_of_sq (by norm_num) (by norm_num)
  simp [e49, e196, e441]

theorem wtThreshold : thresholdOf wt = some (21 / 2) := by
  rw [thresholdOf, wtVol]
  norm_num [medianList, medianOfSorted, List.insertionSort, List.orderedInsert,
    List.filterMap_cons, id_eq, List.getD]

theorem wtLabels :
    labelsOf wt = ["Low Volatility", "Low Volatility", "Low Volatility",
      "High Volatility", "High Volatility"] := by
  rw [labelsOf, wtThreshold, wtVol]
  norm_num [labelOf]

theorem wt4_var : (pctChange wt4).map rowVar = [none, some 0, some 49, some 196] := by
  norm_num [pctChange, pctRows, ffillRow, fillCell, pctCell, wt4, rowVar, sampleVar,
    List.filterMap_cons, id_eq, List.sum_cons, List.sum_nil]

theorem wt4Vol : volatilityOf wt4 = [none, some 0, some 7, some 14] := by
  rw [volatilityOf_eq_var_map, wt4_var]
  have e49 : Real.sqrt (49 : ℝ) = 7 := sqrt_eq_of_sq (by norm_num) (by norm_num)
  have e196 : Real.sqrt (196 : ℝ) = 14 := sqrt_eq_of_sq (by norm_num) (by norm_num)
  simp [e49, e196]

theorem wt4Threshold : thresholdOf wt4 = some 7 := by
  rw [thresholdOf, wt4Vol]
  norm_num [medianList, medianOfSorted, List.insertionSort, List.orderedInsert,
    List.filterMap_cons, id_eq, List.getD]

theorem wt4Labels :
    labelsOf wt4 = ["Low Volatility", "Low Volatility", "Low Volatility",
      "High Volatility"] := by
  rw [labelsOf, wt4Threshold, wt4Vol]
  norm_num [labelOf]

/-! ### Small facts about labels and row statistics -/

theorem labelOf_none (m : Option ℝ) : labelOf none m = "Low Volatility" := by
  cases m <;> rfl

theorem labelOf_cases (s m : Option ℝ) :
    labelOf s m = "High Volatility" ∨ labelOf s m = "Low Volatility" := by
  rcases s with _ | s <;> rcases m with _ | m <;> simp [labelOf]
  exact lt_or_le m s

theorem rowVar_short {r : Row} (h : (r.filterMap id).length ≤ 1) : rowVar r = none := by
  simp only [rowVar]
  rw [if_pos (by omega)]

theorem rowVar_long {r : Row} (h : 2 ≤ (r.filterMap id).length) :
    rowVar r = some (sampleVar (r.filterMap id)) := by
  simp only [rowVar]
  rw [if_neg (by omega)]

theorem cast_list_sum (l : List ℚ) :
    ((l.sum : ℚ) : ℝ) = (l.map (fun (q : ℚ) => (q : ℝ))).sum := by
  simp

/-! ### The claims -/

/-- Claim C1: for every date row whose volatility score is defined and
whenever the threshold (the median of the score column) is defined, the
assigned label is "High Volatility" exactly when the score is strictly
greater than the threshold and "Low Volatility" otherwise; in particular a
score equal to the threshold is labeled "Low Volatility". -/
theorem C1_classify_strict_median (t : Table) (i : ℕ) (s m : ℝ)
    (hs : (volatilityOf t)[i]? = some (some s)) (hm : thresholdOf t = some m) :
    (labelsOf t)[i]? = some (if m < s then "High Volatility" else "Low Volatility")
    ∧ (s = m → (labelsOf t)[i]? = some "Low Volatility") := by
  have hl : (labelsOf t)[i]? = some (labelOf (some s) (some m)) := by
    rw [labelsOf, List.getElem?_map, hs, hm]
    rfl
  constructor
  · rw [hl]; rfl
  · intro he
    subst he
    rw [hl]
    simp [labelOf]

theorem C1_witness :
    (volatilityOf wt4)[2]? = some (some 7) ∧ thresholdOf wt4 = some 7
    ∧ (labelsOf wt4)[2]? =
        some (if (7 : ℝ) < (7 : ℝ) then "High Volatility" else "Low Volatility")
    ∧ (labelsOf wt4)[2]? = some "Low Volatility" := by
  have hs : (volatilityOf wt4)[2]? = some (some 7) := by rw [wt4Vol]; rfl
  obtain ⟨h1, h2⟩ := C1_classify_strict_median wt4 2 7 7 hs wt4Threshold
  exact ⟨hs, wt4Threshold, h1, h2 rfl⟩

/-- Claim C2: the threshold is the median of the defined volatility
scores; for any sorted rearrangement of the defined scores it is the
middle element (odd count) or the mean of the two middle elements (even
count). -/
theorem C2_threshold_median_of_defined (t : Table) (l : List ℝ)
    (hperm : l.Perm ((volatilityOf t).filterMap id))
    (hsort : l.Sorted (· ≤ ·)) (hne : l ≠ []) :
    thresholdOf t = some (if l.length % 2 = 1 then l.getD (l.length / 2) 0
      else (l.getD (l.length / 2 - 1) 0 + l.getD (l.length / 2) 0) / 2) := by
  have hd : (volatilityOf t).filterMap id ≠ [] := by
    intro h
    rw [h] at hperm
    exact hne hperm.eq_nil
  have hl : l = List.insertionSort (· ≤ ·) ((volatilityOf t).filterMap id) :=
    List.eq_of_perm_of_sorted (hperm.trans (List.perm_insertionSort _ _).symm) hsort
      (List.sorted_insertionSort _ _)
  rw [thresholdOf]
  simp only [medianList]
  rw [if_neg (by simpa [List.isEmpty_iff] using hd), ← hl, medianOfSorted]

theorem C2_witness :
    (([0, 7, 14, 21] : List ℝ).Sorted (· ≤ ·))
    ∧ (volatilityOf wt).filterMap id = [0, 7, 14, 21]
    ∧ thresholdOf wt = some (((7 : ℝ) + 14) / 2) := by
  have hfm : (volatilityOf wt).filterMap id = [0, 7, 14, 21] := by
    rw [wtVol]; rfl
  have hsort : (([0, 7, 14, 21] : List ℝ)).Sorted (· ≤ ·) := by
    norm_num [List.sorted_cons]
  have h := C2_threshold_median_of_defined wt [0, 7, 14, 21]
    (by rw [hfm]) hsort (by simp)
  refine ⟨hsort, hfm, ?_⟩
  simpa using h

/-- Claim C3: the volatility score of row `i` is the sample standard
deviation (ddof = 1) of the defined return values of returns row `i`: it
is undefined when fewer than two values are defined, and otherwise it is
the unique nonnegative real whose square is the sum of squared deviations
from the mean divided by `n - 1`. -/
theorem C3_score_sample_std (t : Table) (i : ℕ) (row : Row)
    (hrow : (pctChange t)[i]? = some row) :
    (volatilityOf t)[i]? = some (rowStd row)
    ∧ ((row.filterMap id).length ≤ 1 → (volatilityOf t)[i]? = some none)
    ∧ (2 ≤ (row.filterMap id).length →
        ∃ s : ℝ, (volatilityOf t)[i]? = some (some s) ∧ 0 ≤ s ∧
          s ^ 2 = ((row.filterMap id).map
              (fun (x : ℚ) => ((x : ℝ) -
                ((row.filterMap id).map (Rat.cast : ℚ → ℝ)).sum /
                  ((row.filterMap id).length : ℝ)) ^ 2)).sum /
            (((row.filterMap id).length : ℝ) - 1)) := by
  have hv : (volatilityOf t)[i]? = some (rowStd row) := by
    rw [volatilityOf, List.getElem?_map, hrow]
    rfl
  refine ⟨hv, ?_, ?_⟩
  · intro hle
    rw [hv, rowStd, rowVar_short hle]
    rfl
  · intro h2
    have hnn : (0 : ℚ) ≤ sampleVar (row.filterMap id) := by
      apply div_nonneg
      · apply List.sum_nonneg
        intro x hx
        rcases List.mem_map.mp hx with ⟨y, _, hye⟩
        rw [← hye]
        positivity
      · have : (2 : ℚ) ≤ ((row.filterMap id).length : ℚ) := by exact_mod_cast h2
        linarith
    refine ⟨Real.sqrt ((sampleVar (row.filterMap id) : ℚ) : ℝ), ?_, Real.sqrt_nonneg _, ?_⟩
    · rw [hv, rowStd, rowVar_long h2]
      rfl
    · rw [Real.sq_sqrt (by exact_mod_cast hnn)]
      rw [sampleVar]
      push_cast
      rw [List.map_map]
      congr 1
      apply congrArg List.sum
      apply List.map_congr_left
      intro x _
      simp only [Function.comp_apply]
      push_cast
      ring

theorem C3_witness :
    (pctChange wt)[2]? = some [some 11, some 13, some 0]
    ∧ ∃ s : ℝ, (volatilityOf wt)[2]? = some (some s) ∧ 0 ≤ s ∧ s ^ 2 = 49 := by
  have hrow : (pctChange wt)[2]? = some [some 11, some 13, some 0] := by
    norm_num [pctChange, pctRows, ffillRow, fillCell, pctCell, wt]
  obtain ⟨s, hs, hnn, hsq⟩ := (C3_score_sample_std wt 2 _ hrow).2.2
    (by norm_num [List.filterMap_cons])
  refine ⟨hrow, s, hs, hnn, ?_⟩
  rw [hsq]
  norm_num [List.filterMap_cons, List.map_cons, List.sum_cons]

/-- Claim C4 (amended): for a price table whose rows all have width `w`,
`pct_change` keeps the number of rows (it does not drop the first row),
its first row is entirely undefined, and every cell both of whose operand
prices are present in the original table equals
`(price[row] - price[row - 1]) / price[row - 1]`. Cells with a missing
operand are not in general undefined, because pandas forward-fills
missing prices before differencing. -/
theorem C4_returns_shape_and_values (t : Table) (w : ℕ) (hw : ∀ r ∈ t, r.length = w) :
    (pctChange t).length = t.length
    ∧ (∀ r0, (pctChange t)[0]? = some r0 → ∀ c ∈ r0, c = none)
    ∧ (∀ (i j : ℕ) (p c : ℚ) (ra rb : Row),
        t[i]? = some ra → t[i + 1]? = some rb →
        ra[j]? = some (some p) → rb[j]? = some (some c) →
        ∃ rr, (pctChange t)[i + 1]? = some rr ∧ rr[j]? = some (some ((c - p) / p))) := by
  refine ⟨pctChange_length t, fun r0 h => pctChange_head_none t r0 h, ?_⟩
  intro i j p c ra rb hra hrb hp hc
  cases t with
  | nil => simp at hra
  | cons b bs =>
    have hb : b.length = w := hw b (by simp)
    have hbs : ∀ r ∈ bs, r.length = w := fun r hr => hw r (by simp [hr])
    have hstep : (pctChange (b :: bs))[i + 1]? = (pctRows b bs)[i]? := by
      simp [pctChange]
    rw [hstep]
    exact pctRows_both_defined bs b b hb hb hbs (fun _ _ hv => hv) i j p c ra rb
      hra (by simpa using hrb) hp hc

theorem C4_returns_cex :
    (pctChange tmix).length ≠ tmix.length - 1
    ∧ tmix[1]? = some [some 2, none]
    ∧ (pctChange tmix)[1]? = some [some 1, some 0] := by
  have hpct : pctChange tmix = [[none, none], [some 1, some 0], [some 1, some 0]] := by
    norm_num [pctChange, pctRows, ffillRow, fillCell, pctCell, tmix]
  refine ⟨?_, rfl, ?_⟩
  · rw [hpct]
    simp [tmix]
  · rw [hpct]
    rfl

theorem C4_witness :
    (pctChange wt).length = 5
    ∧ ∃ rr, (pctChange wt)[2]? = some rr ∧ rr[0]? = some (some 11) := by
  obtain ⟨h1, _, h3⟩ := C4_returns_shape_and_values wt 3 (by decide)
  obtain ⟨rr, hrr, hcell⟩ := h3 1 0 2 24 [some 2, some 2, some 2]
    [some 24, some 28, some 2] rfl rfl rfl rfl
  refine ⟨by rw [h1]; rfl, rr, hrr, ?_⟩
  rw [hcell]
  norm_num

/-- Claim C5 (amended): the code contains no arity check and no
`InsufficientDataError`; on a one-column table the classification step
completes, every score is undefined and every row is labeled
"Low Volatility". -/
theorem C5_no_insufficient_data_error (t : Table) (h : ∀ r ∈ t, r.length = 1) :
    volatilityOf t = List.replicate t.length none
    ∧ labelsOf t = List.replicate t.length "Low Volatility" := by
  have hv : volatilityOf t = List.replicate t.length none := by
    rw [volatilityOf]
    apply List.eq_replicate_iff.mpr
    constructor
    · simp [pctChange_length]
    · intro b hb
      rcases List.mem_map.mp hb with ⟨r, hr, hbe⟩
      have hr1 : r.length = 1 := pctChange_widths t h r hr
      rw [← hbe]
      exact rowStd_short (by omega)
  refine ⟨hv, ?_⟩
  rw [labelsOf, hv, List.map_replicate, labelOf_none]

theorem C5_one_column_cex :
    (generate_volatility_comparison ⟨oneCol, none, none⟩).volatilityLevel
      = some ["Low Volatility", "Low Volatility", "Low Volatility"] := by
  have hvol : volatilityOf oneCol = [none, none, none] := by
    rw [volatilityOf_eq_var_map]
    norm_num [pctChange, pctRows, ffillRow, fillCell, pctCell, oneCol, rowVar,
      List.filterMap_cons, id_eq]
  have hthr : thresholdOf oneCol = none := by
    rw [thresholdOf, hvol]
    simp [medianList]
  show some (labelsOf oneCol) = _
  rw [labelsOf, hvol, hthr]
  rfl

theorem C5_witness :
    volatilityOf oneCol = List.replicate 3 none
    ∧ labelsOf oneCol = List.replicate 3 "Low Volatility" := by
  have h := C5_no_insufficient_data_error oneCol (by decide)
  simpa [oneCol] using h

/-- Claim C6 (amended): the classification step does not modify the price
columns of the caller DataFrame, but it does mutate the DataFrame in
place: after the call the object additionally carries the two derived
columns, so its state is different from the state before the call. -/
theorem C6_prices_preserved_but_mutated (df : DF) (h : df.volatility = none) :
    (generate_volatility_comparison df).prices = df.prices
    ∧ generate_volatility_comparison df ≠ df := by
  refine ⟨rfl, fun he => ?_⟩
  have hv := congrArg DF.volatility he
  rw [h] at hv
  exact Option.noConfusion hv

theorem C6_mutation_cex :
    generate_volatility_comparison ⟨wt, none, none⟩ ≠ (⟨wt, none, none⟩ : DF) := by
  intro he
  have hv := congrArg DF.volatility he
  exact Option.noConfusion hv

theorem C6_witness :
    (⟨wt, none, none⟩ : DF).volatility = none
    ∧ (generate_volatility_comparison ⟨wt, none, none⟩).prices = wt
    ∧ generate_volatility_comparison ⟨wt, none, none⟩ ≠ (⟨wt, none, none⟩ : DF) := by
  obtain ⟨h1, h2⟩ := C6_prices_preserved_but_mutated ⟨wt, none, none⟩ rfl
  exact ⟨rfl, h1, h2⟩

/-- Claim C7 (amended): every row of the output carries exactly one of the
two labels, so the label column partitions all date rows (not only those
with a defined score) into two disjoint groups; the label column has one
entry per input row. -/
theorem C7_two_label_partition (t : Table) (i : ℕ) (l : String)
    (h : (labelsOf t)[i]? = some l) :
    (l = "High Volatility" ∨ l = "Low Volatility")
    ∧ ¬ (l = "High Volatility" ∧ l = "Low Volatility")
    ∧ (labelsOf t).length = t.length := by
  refine ⟨?_, ?_, ?_⟩
  · rw [labelsOf, List.getElem?_map] at h
    cases hv : (volatilityOf t)[i]? with
    | none => rw [hv] at h; simp at h
    | some s =>
      rw [hv] at h
      have h2 : labelOf s (thresholdOf t) = l := by simpa using h
      rcases labelOf_cases s (thresholdOf t) with hc | hc
      · exact Or.inl (by rw [← h2, hc])
      · exact Or.inr (by rw [← h2, hc])
  · rintro ⟨ha, hb⟩
    rw [ha] at hb
    exact absurd hb (by decide)
  · rw [labelsOf, List.length_map, volatilityOf, List.length_map, pctChange_length]

theorem C7_unlabeled_rows_cex :
    (volatilityOf wt)[0]? = some none ∧ (labelsOf wt)[0]? = some "Low Volatility" := by
  constructor
  · rw [wtVol]; rfl
  · rw [wtLabels]; rfl

theorem C7_witness :
    (labelsOf wt)[3]? = some "High Volatility"
    ∧ ("High Volatility" = "High Volatility" ∨ "High Volatility" = "Low Volatility")
    ∧ ¬ ("High Volatility" = "High Volatility" ∧ "High Volatility" = "Low Volatility")
    ∧ (labelsOf wt).length = wt.length := by
  have h : (labelsOf wt)[3]? = some "High Volatility" := by rw [wtLabels]; rfl
  obtain ⟨h1, h2, h3⟩ := C7_two_label_partition wt 3 "High Volatility" h
  exact ⟨h, h1, h2, h3⟩

/-- Claim C8: when the provider download raises or returns an empty
table, the run reaches the `Failed` terminal state, at least one
user-visible error message is printed, and no report artifact is
written. -/
theorem C8_failed_run_no_artifacts (d : Option Table)
    (h : d = none ∨ d = some ([] : Table)) :
    (mainRun d).state = RunState.Failed
    ∧ (mainRun d).artifacts = []
    ∧ (mainRun d).messages ≠ [] := by
  rcases h with h | h <;> subst h <;>
    exact ⟨rfl, rfl, by simp [mainRun, fetch_stock_data]⟩

theorem C8_witness :
    (mainRun none).state = RunState.Failed
    ∧ (mainRun none).artifacts = []
    ∧ (mainRun none).messages ≠ [] :=
  C8_failed_run_no_artifacts none (Or.inl rfl)

/-- Claim C9: permuting the ticker columns of a price table does not
change the volatility score of any date row: the whole score column is
unchanged. `p` lists, for each output column, the index of the input
column it takes, so a permutation `p` of `range w` is exactly a
permutation of the ticker columns. -/
theorem C9_volatility_column_permutation (w : ℕ) (p : List ℕ) (t : Table)
    (hp : p.Perm (List.range w)) (hw : ∀ r ∈ t, r.length = w) :
    volatilityOf (permuteCols p t) = volatilityOf t := by
  rw [volatilityOf, volatilityOf, pctChange_permute p t hw, permuteCols, List.map_map]
  apply List.map_congr_left
  intro r hr
  exact rowStd_perm (permRow_perm hp r (pctChange_widths t hw r hr))

theorem C9_witness :
    ([1, 0] : List ℕ).Perm (List.range 2)
    ∧ volatilityOf (permuteCols [1, 0] tmix) = volatilityOf tmix :=
  ⟨by decide, C9_volatility_column_permutation 2 [1, 0] tmix (by decide) (by decide)⟩

/-- Claim C10: a row whose volatility score is undefined is labeled
"Low Volatility" (an undefined score never compares strictly greater than
the threshold) and the boolean partition vector marks it as not
high-volatility; in particular the first row of any nonempty table has an
undefined score. -/
theorem C10_undefined_scores_low (t : Table) (i : ℕ) :
    ((volatilityOf t)[i]? = some none →
      (labelsOf t)[i]? = some "Low Volatility"
      ∧ (partitionOf t)[i]? = some false)
    ∧ (∀ (r : Row) (rs : Table), t = r :: rs → (volatilityOf t)[0]? = some none) := by
  constructor
  · intro hv
    have hl : (labelsOf t)[i]? = some "Low Volatility" := by
      rw [labelsOf, List.getElem?_map, hv]
      simp [labelOf_none]
    refine ⟨hl, ?_⟩
    rw [partitionOf, List.getElem?_map, hl]
    rfl
  · rintro r rs rfl
    exact volatilityOf_head_none r rs

theorem C10_witness :
    (volatilityOf wt)[0]? = some none
    ∧ (labelsOf wt)[0]? = some "Low Volatility"
    ∧ (partitionOf wt)[0]? = some false := by
  have hv : (volatilityOf wt)[0]? = some none :=
    (C10_undefined_scores_low wt 0).2 [some 1, some 1, some 1]
      [[some 2, some 2, some 2], [some 24, some 28, some 2],
       [some 552, some 756, some 2], [some 18768, some 30240, some 2]] rfl
  obtain ⟨h1, h2⟩ := (C10_undefined_scores_low wt 0).1 hv
  exact ⟨hv, h1, h2⟩
